import Mathlib

/-!
Verification development for the peclone utility (src/peclone.py).

The program clones PE resources from a source binary into a copy of a
destination binary and re-patches the optional-header checksum.  The
Python code delegates the binary-format work to the Win32 API:

  * enumeration of the source resources is done through
    EnumResourceNamesW / EnumResourceLanguagesW / FindResourceW with the
    Python callbacks add_languages / add_resources collecting tuples;
  * the rewrite of the output file is done through BeginUpdateResourceW
    (with bDeleteExistingResources = False), UpdateResourceW and
    EndUpdateResourceW;
  * the checksum value is produced by imagehlp.MapFileAndCheckSumW and
    then written by hand at offset (mmap.find of the bytes PE 00 00) + 0x58.

The embedding below translates the Python callback logic literally and
models each Win32 call by its documented behaviour.  Components whose
algorithms exist only in the design document (the directory reader walk,
the directory writer layout, the checksum algorithm itself) are modelled
from the specification text and carry a doc comment saying so.
-/

namespace ResourceTypes

/-- Resource type constant from the ResourceTypes class in the source. -/
def RT_CURSOR : Nat := 0x01

/-- Resource type constant from the ResourceTypes class in the source. -/
def RT_BITMAP : Nat := 0x02

/-- Resource type constant from the ResourceTypes class in the source. -/
def RT_ICON : Nat := 0x03

/-- Resource type constant from the ResourceTypes class in the source. -/
def RT_MENU : Nat := 0x04

/-- Resource type constant from the ResourceTypes class in the source. -/
def RT_GROUP_CURSOR : Nat := 0x0c

/-- Resource type constant from the ResourceTypes class in the source. -/
def RT_GROUP_ICON : Nat := 0x0e

/-- Resource type constant from the ResourceTypes class in the source. -/
def RT_VERSION : Nat := 0x10

/-- Resource type constant from the ResourceTypes class in the source. -/
def RT_MANIFEST : Nat := 0x18

end ResourceTypes

/-- One record appended to PeClone.resources: the Python 5-tuple
(res_type, res_name, res_lang, data bytes, size). -/
structure ResourceRecord where
  res_type : Nat
  res_name : Nat
  res_lang : Nat
  res_data : List Nat
  res_size : Nat
deriving DecidableEq

/-- The mutable per-instance state of a PeClone object: the resources
list and the languages list, both initialised empty in the constructor
and only ever appended to. -/
structure CloneAcc where
  resources : List ResourceRecord
  languages : List Nat
deriving DecidableEq

/-- Model of what the Win32 enumeration surface of a loaded source image
provides to the Python callbacks:

  * names t         = the resource names reported by EnumResourceNamesW
                      for type t, in callback order;
  * langs t n       = the languages reported by EnumResourceLanguagesW
                      for the resource (t, n), in callback order;
  * dataAt t n l    = the raw bytes of the (t, n, l) resource variant in
                      the source image;
  * findData t n    = the bytes of the single variant returned by
                      FindResourceW(handle, n, t) - a lookup that names
                      no language, so it designates one variant of
                      (t, n) picked by the loader search order.

The Python code reads resource bytes exclusively through findData
(FindResourceW / SizeofResource / LoadResource / LockResource); dataAt
exists in the model only to compare the collected bytes against the
actual per-language source entries. -/
structure SourceImage where
  names : Nat → List Nat
  langs : Nat → Nat → List Nat
  dataAt : Nat → Nat → Nat → List Nat
  findData : Nat → Nat → List Nat

namespace PeClone

/-- The default allow-list, the RESOURCE_TYPES tuple of the source:
(RT_BITMAP, RT_ICON, RT_GROUP_CURSOR, RT_GROUP_ICON, RT_VERSION,
RT_MANIFEST). -/
def RESOURCE_TYPES : List Nat :=
  [ResourceTypes.RT_BITMAP, ResourceTypes.RT_ICON,
   ResourceTypes.RT_GROUP_CURSOR, ResourceTypes.RT_GROUP_ICON,
   ResourceTypes.RT_VERSION, ResourceTypes.RT_MANIFEST]

/-- PeClone.add_languages: the EnumResourceLanguagesW callback.  It
appends res_lang to the instance languages list when not yet present.
The list is shared by the whole instance and never cleared. -/
def add_languages (languages : List Nat) (res_lang : Nat) : List Nat :=
  if res_lang ∈ languages then languages else languages ++ [res_lang]

/-- Folding add_languages over the language list reported for one
resource, starting from the current accumulated languages list. -/
def accLangs (languages : List Nat) (reported : List Nat) : List Nat :=
  reported.foldl add_languages languages

/-- PeClone.add_resources: the EnumResourceNamesW callback.  It first
lets EnumResourceLanguagesW feed add_languages with the languages of
this one resource, then iterates over the WHOLE accumulated languages
list, and for each language appends a record whose bytes come from
FindResourceW(handle, res_name, res_type) - a lookup keyed only by the
(name, type) pair, with no language argument. -/
def add_resources (img : SourceImage) (acc : CloneAcc)
    (res_type res_name : Nat) : CloneAcc :=
  let languages := accLangs acc.languages (img.langs res_type res_name)
  { resources := acc.resources ++ languages.map (fun res_lang =>
      { res_type := res_type
        res_name := res_name
        res_lang := res_lang
        res_data := img.findData res_type res_name
        res_size := (img.findData res_type res_name).length })
    languages := languages }

/-- PeClone.load_resources: for each type in res_types,
EnumResourceNamesW invokes add_resources once per resource name.  The
instance starts with empty resources and languages lists. -/
def load_resources (img : SourceImage) (res_types : List Nat) : CloneAcc :=
  res_types.foldl
    (fun acc res_type =>
      (img.names res_type).foldl
        (fun acc res_name => add_resources img acc res_type res_name) acc)
    { resources := [], languages := [] }

end PeClone

/-- A resource directory viewed as an association list from the
(type, name, language) key to the raw data, keys unique. -/
abbrev ResDir : Type := List ((Nat × Nat × Nat) × List Nat)

/-- Model of UpdateResourceW with non-null data on a directory with
unique keys: replace the entry with the given key when present,
otherwise add a new entry. -/
def updateResource : ResDir → (Nat × Nat × Nat) → List Nat → ResDir
  | [], k, d => [(k, d)]
  | (k0, d0) :: rest, k, d =>
      if k0 = k then (k, d) :: rest else (k0, d0) :: updateResource rest k d

/-- Model of the rewrite loop of clone_resources: BeginUpdateResourceW
is called with bDeleteExistingResources = False, so the update session
starts from the resource directory the output file already has
(destDir); each collected record is then applied with UpdateResourceW
and EndUpdateResourceW commits the result. -/
def endUpdateResourceW (destDir : ResDir) (rs : List ResourceRecord) : ResDir :=
  rs.foldl
    (fun dir r => updateResource dir (r.res_type, r.res_name, r.res_lang) r.res_data)
    destDir

/-- Lookup of a key in a resource directory. -/
def lookupDir : ResDir → (Nat × Nat × Nat) → Option (List Nat)
  | [], _ => none
  | (k0, d0) :: rest, k => if k0 = k then some d0 else lookupDir rest k

/-- The data of the last record with the given key in a record list,
none when the key does not occur. -/
def lastData : List ResourceRecord → (Nat × Nat × Nat) → Option (List Nat)
  | [], _ => none
  | r :: rest, k =>
      match lastData rest k with
      | some d => some d
      | none =>
          if (r.res_type, r.res_name, r.res_lang) = k then some r.res_data else none

/-- Overwrite the bytes of buf starting at off with the bytes of xs,
one List.set per byte; positions beyond the end of buf are dropped,
matching slice assignment on a fixed-size mmap view. -/
def setSlice : List Nat → Nat → List Nat → List Nat
  | buf, _, [] => buf
  | buf, off, x :: xs => setSlice (buf.set off x) (off + 1) xs

/-- Write a 32-bit value at off in little-endian byte order, the effect
of assigning bytearray(checksum_new) to a 4-byte slice. -/
def writeLE32 (buf : List Nat) (off v : Nat) : List Nat :=
  setSlice buf off [v % 256, v / 256 % 256, v / 65536 % 256, v / 16777216 % 256]

/-- Replace n bytes starting at off with zero bytes. -/
def zeroSlice (buf : List Nat) (off n : Nat) : List Nat :=
  setSlice buf off (List.replicate n 0)

/-- Read a 32-bit little-endian value at off; out-of-range positions
read as zero. -/
def readLE32 (buf : List Nat) (off : Nat) : Nat :=
  buf.getD off 0 + 256 * buf.getD (off + 1) 0 +
    65536 * buf.getD (off + 2) 0 + 16777216 * buf.getD (off + 3) 0

/-- Whether the 4-byte magic signature PE 00 00 occurs at position i;
all four bytes must lie inside the buffer, as for mmap.find. -/
def sigAt (buf : List Nat) (i : Nat) : Bool :=
  decide (i + 4 ≤ buf.length) && buf.getD i 0 == 0x50 &&
    buf.getD (i + 1) 0 == 0x45 && buf.getD (i + 2) 0 == 0 && buf.getD (i + 3) 0 == 0

/-- Scan for the signature from position i with the given fuel,
returning -1 when it does not occur: the semantics of mmap.find. -/
def findSigFrom (buf : List Nat) : Nat → Nat → Int
  | 0, _ => -1
  | fuel + 1, i => if sigAt buf i then (i : Int) else findSigFrom buf fuel (i + 1)

/-- The index of the first occurrence of the signature PE 00 00 in the
buffer, -1 when absent: models mmap.find applied to those 4 bytes. -/
def findSig (buf : List Nat) : Int :=
  findSigFrom buf buf.length 0

/-- Group a byte list into 16-bit little-endian words, an odd trailing
byte acting as a word with a zero high byte. -/
def words16 : List Nat → List Nat
  | [] => []
  | [b0] => [b0]
  | b0 :: b1 :: rest => (b0 + 256 * b1) :: words16 rest

/-- Fold the carry bits above 16 back into the low 16 bits. -/
def csum_fold (a : Nat) : Nat := a % 65536 + a / 65536

/-- Modelled from the spec: the documented image-checksum algorithm that
imagehlp.MapFileAndCheckSumW implements and the design document
restates.  Sum the file as 16-bit little-endian words with carry
folding after each addition, fold once more, keep the low 16 bits and
add the total file length. -/
def pe_checksum (buf : List Nat) : Nat :=
  csum_fold ((words16 buf).foldl (fun a w => csum_fold (a + w)) 0) % 65536 + buf.length

/-- Modelled from the spec: imagehlp.MapFileAndCheckSumW, which is
external to the repository.  It locates the header through the DOS
header (MZ magic, e_lfanew at offset 0x3c, PE signature at e_lfanew),
treats the 4-byte checksum field at e_lfanew + 0x58 as zero and runs
the documented checksum algorithm; none models a failed call on a
buffer without a valid header.  The Python code ignores the return
value, so a failure leaves its zero-initialised DWORD untouched. -/
def mapFileAndCheckSum (buf : List Nat) : Option Nat :=
  if 0x40 ≤ buf.length ∧ buf.getD 0 0 = 0x4d ∧ buf.getD 1 0 = 0x5a then
    let lfanew := readLE32 buf 0x3c
    if lfanew + 0x5c ≤ buf.length ∧ sigAt buf lfanew = true then
      some (pe_checksum (zeroSlice buf (lfanew + 0x58) 4) % 4294967296)
    else none
  else none

/-- The only exception the checksum step of clone_resources can raise
in the model: a 4-byte slice assignment whose range does not fit in the
mapped file. -/
inductive PatchErr
  | sliceAssign
deriving DecidableEq

/-- The checksum step of clone_resources (the last block of the Python
function): obtain checksum_new from MapFileAndCheckSumW with the return
code ignored (a failed call leaves the value 0), compute the field
offset as mmap.find of the signature plus 0x58 - note that a missing
signature makes find return -1 and the offset become 0x57 - and write
the 4 checksum bytes there when the slice fits, else fail like the
mismatched slice assignment does. -/
def checksum_patch (buf : List Nat) : Except PatchErr (List Nat) :=
  let cnew := (mapFileAndCheckSum buf).getD 0
  let off := (findSig buf + 0x58).toNat
  if off + 4 ≤ buf.length then .ok (writeLE32 buf off cnew) else .error .sliceAssign

/-- Modelled from the spec: the ResourceDirectoryWriter splice (section
4.3 of the design), absent from the repository because the code
delegates the rewrite to EndUpdateResourceW.  Given the output buffer,
the file range [resStart, resStart + oldLen) of the section hosting
resources, the file offset of the owning section-table entry, the file
offset of the resource data-directory pointer, the new virtual address
and the serialized directory bytes: place the directory bytes in the
existing range zero-padded when they fit, otherwise append the section
storage at the end of the image; update the size and address fields of
the one owning section-table entry (virtual size, virtual address, raw
size, raw pointer); finally update the directory pointer (address and
size), as step 4 of the spec requires. -/
def write_resources (buf : List Nat) (resStart oldLen secEntryOff dirPtrOff rva : Nat)
    (resBytes : List Nat) : List Nat :=
  let fits := resBytes.length ≤ oldLen
  let start := if fits then resStart else buf.length
  let buf1 := if fits
    then setSlice buf resStart (resBytes ++ List.replicate (oldLen - resBytes.length) 0)
    else buf ++ resBytes
  let buf2 := writeLE32 buf1 (secEntryOff + 8) resBytes.length
  let buf3 := writeLE32 buf2 (secEntryOff + 12) rva
  let buf4 := writeLE32 buf3 (secEntryOff + 16) (max resBytes.length oldLen)
  let buf5 := writeLE32 buf4 (secEntryOff + 20) start
  let buf6 := writeLE32 buf5 dirPtrOff rva
  writeLE32 buf6 (dirPtrOff + 4) resBytes.length

/-- The malformed-directory failure of the spec-modelled reader. -/
inductive ReadErr
  | boundsExceeded
deriving DecidableEq

/-- A source image for the spec-modelled reader: the raw bytes plus the
three-level directory structure, each leaf giving its language, its
resolved file offset and its declared length.  The spec describes the
tree structurally (category, then name, then language) and leaves the
binary node encoding open, so the model takes the structure as given
and keeps the bounds discipline, which is what the reader claims are
about. -/
structure RawSource where
  bytes : List Nat
  tree : List (Nat × List (Nat × List (Nat × Nat × Nat)))

/-- Modelled from the spec: reading one leaf checks that the resolved
offset plus the declared length stays inside the buffer and extracts
exactly that slice; access is by take and drop, so no index beyond the
buffer is ever touched. -/
def read_leaf (buf : List Nat) (off len : Nat) : Except ReadErr (List Nat) :=
  if off + len ≤ buf.length then .ok ((buf.drop off).take len) else .error .boundsExceeded

/-- Modelled from the spec: the depth-2 walk over the language entries
of one (category, name) pair. -/
def readLangs (buf : List Nat) (cat nm : Nat) :
    List (Nat × Nat × Nat) → Except ReadErr (List ResourceRecord)
  | [] => .ok []
  | (lg, off, len) :: rest =>
      match read_leaf buf off len with
      | .error e => .error e
      | .ok d =>
          match readLangs buf cat nm rest with
          | .error e => .error e
          | .ok tail => .ok ({ res_type := cat, res_name := nm, res_lang := lg,
                               res_data := d, res_size := d.length } :: tail)

/-- Modelled from the spec: the depth-1 walk over the names of one
category. -/
def readNames (buf : List Nat) (cat : Nat) :
    List (Nat × List (Nat × Nat × Nat)) → Except ReadErr (List ResourceRecord)
  | [] => .ok []
  | (nm, ls) :: rest =>
      match readLangs buf cat nm ls with
      | .error e => .error e
      | .ok here =>
          match readNames buf cat rest with
          | .error e => .error e
          | .ok tail => .ok (here ++ tail)

/-- Modelled from the spec: the depth-0 walk; categories outside the
allow-list are skipped without descending. -/
def readCats (buf : List Nat) (allow : List Nat) :
    List (Nat × List (Nat × List (Nat × Nat × Nat))) → Except ReadErr (List ResourceRecord)
  | [] => .ok []
  | (cat, ns) :: rest =>
      if cat ∈ allow then
        match readNames buf cat ns with
        | .error e => .error e
        | .ok here =>
            match readCats buf allow rest with
            | .error e => .error e
            | .ok tail => .ok (here ++ tail)
      else readCats buf allow rest

/-- Modelled from the spec: the ResourceDirectoryReader of section 4.1,
absent from the repository because the code delegates enumeration to
the OS loader (LoadLibraryExW and the EnumResource callbacks). -/
def read_resources (src : RawSource) (allow : List Nat) :
    Except ReadErr (List ResourceRecord) :=
  readCats src.bytes allow src.tree

/-- An error of the full clone sequence: either from the reader step or
from the checksum step. -/
inductive CloneErr
  | reader (e : ReadErr)
  | patch (e : PatchErr)
deriving DecidableEq

/-- The orchestration of clone_resources as the source sequences it.
The FIRST statement of the function is shutil.copy2, which persists a
verbatim copy of the destination at the output path; every later step
mutates that file on disk in place.  The first component of the result
is the content of the output path when the function returns or raises,
the second the outcome.  The prior output-path content is overwritten
by the copy and never read, hence the unused first argument.  The
reader step is the spec-modelled read_resources (the code delegates it
to the OS loader); the rewrite step is abstracted by writerEffect,
since the byte-level effect of EndUpdateResourceW is external to the
repository; the checksum step is checksum_patch, translated from the
source. -/
def clone_run (_prior : Option (List Nat)) (dest : List Nat) (src : RawSource)
    (allow : List Nat)
    (writerEffect : List Nat → List ResourceRecord → List Nat) :
    Option (List Nat) × Except CloneErr Unit :=
  let out0 := dest
  match read_resources src allow with
  | .error e => (some out0, .error (.reader e))
  | .ok recs =>
      let out1 := writerEffect out0 recs
      match checksum_patch out1 with
      | .ok b => (some b, .ok ())
      | .error e => (some out1, .error (.patch e))

/-- Number of records in a list carrying the given
(type, name, language) key. -/
def countKey (rs : List ResourceRecord) (t n l : Nat) : Nat :=
  (rs.filter (fun r => r.res_type == t && r.res_name == n && r.res_lang == l)).length

/-- A source image whose enumeration reports nothing at all: a source
with no resources (or one the loader could not enumerate, since the
code ignores every return code). -/
def emptyImage : SourceImage :=
  { names := fun _ => [], langs := fun _ _ => [], dataAt := fun _ _ _ => [],
    findData := fun _ _ => [] }

/-- Source image with one icon resource, name 1, single language 0,
used to instantiate the allow-list theorem. -/
def iconImage : SourceImage :=
  { names := fun t => if t = 3 then [1] else [], langs := fun _ _ => [0],
    dataAt := fun _ _ _ => [1], findData := fun _ _ => [1] }

/-- Source image with one icon resource, name 7, carrying two language
variants 1033 and 1034 with DIFFERENT bytes; FindResourceW without a
language argument returns one single variant, here the 1033 one. -/
def twoLangImage : SourceImage :=
  { names := fun t => if t = 3 then [7] else [],
    langs := fun t n => if t = 3 ∧ n = 7 then [1033, 1034] else [],
    dataAt := fun _ _ l => if l = 1033 then [1] else [2],
    findData := fun _ _ => [1] }

/-- Source image whose languages enumeration reports language 5 for
every resource, used to instantiate the accumulation theorem. -/
def oneLangImage : SourceImage :=
  { names := fun _ => [], langs := fun _ _ => [5], dataAt := fun _ _ _ => [],
    findData := fun _ _ => [9, 9] }

/-- An accumulator state in which language 7 has already been observed
for an earlier resource of the run. -/
def accSeen7 : CloneAcc := { resources := [], languages := [7] }

/-- A 0x9c-byte well-formed image skeleton: MZ magic, e_lfanew = 0x40
at offset 0x3c, the PE signature at 0x40 and no earlier occurrence,
zeroes elsewhere.  The checksum field sits at 0x40 + 0x58 = 0x98. -/
def baseImg : List Nat :=
  [0x4d, 0x5a] ++ List.replicate 0x3a 0 ++ [0x40, 0, 0, 0] ++
    [0x50, 0x45, 0, 0] ++ List.replicate 0x58 0

/-- The output of the checksum step on baseImg. -/
def baseImgPatched : List Nat :=
  writeLE32 baseImg 0x98 ((mapFileAndCheckSum baseImg).getD 0)

/-- A 0x9c-byte image whose FIRST occurrence of the PE signature is a
stray one at offset 2 inside the DOS stub area, while the real header
sits at e_lfanew = 0x40; the true checksum field at 0x98 holds the
stale value 0x1234. -/
def strayImg : List Nat :=
  [0x4d, 0x5a] ++ [0x50, 0x45, 0, 0] ++ List.replicate 0x36 0 ++ [0x40, 0, 0, 0] ++
    [0x50, 0x45, 0, 0] ++ List.replicate 0x54 0 ++ [0x34, 0x12, 0, 0]

/-- The output of the checksum step on strayImg: the patch lands at
(first occurrence 2) + 0x58 = 0x5a, inside the DOS stub. -/
def strayImgPatched : List Nat :=
  writeLE32 strayImg 0x5a ((mapFileAndCheckSum strayImg).getD 0)

/-- The buffer produced by the spec-modelled writer on baseImg with the
resource section at file range [0x90, 0x94), the owning section-table
entry at 0x60 (size and address fields at [0x68, 0x78)), the resource
data-directory pointer at [0x80, 0x88) and a 3-byte serialized
directory. -/
def writerOut : List Nat := write_resources baseImg 0x90 4 0x60 0x80 0x1000 [1, 2, 3]

/-- writerOut after the checksum step; its field offset is 0x98 since
the signature still first occurs at 0x40. -/
def writerOutPatched : List Nat :=
  writeLE32 writerOut 0x98 ((mapFileAndCheckSum writerOut).getD 0)

/-- A 0x5b-byte buffer of 0xAA bytes: it contains no PE signature, so
mmap.find returns -1 and the patch offset becomes -1 + 0x58 = 0x57. -/
def noSigBuf : List Nat := List.replicate 0x5b 0xAA

/-- What the checksum step writes over noSigBuf: four zero bytes (the
DWORD left zero-initialised after the failed MapFileAndCheckSumW call)
at offset 0x57. -/
def noSigBufPatched : List Nat := writeLE32 noSigBuf 0x57 0

/-- A raw source with an 8-byte buffer and a directory whose single
leaf (category 3, name 1, language 0x409) declares offset 4 and length
8: 4 + 8 exceeds the buffer bound. -/
def oobSource : RawSource :=
  { bytes := List.replicate 8 0, tree := [(3, [(1, [(0x409, 4, 8)])])] }

/-- A raw source with no resource directory at all. -/
def emptySource : RawSource := { bytes := [], tree := [] }

/-- A 16-byte destination, too short for any checksum patch and with no
signature: the checksum step fails on it. -/
def shortDest : List Nat := List.replicate 16 7

theorem setSlice_length (xs : List Nat) :
    ∀ (buf : List Nat) (off : Nat), (setSlice buf off xs).length = buf.length := by
  induction xs with
  | nil => intro buf off; rfl
  | cons x xs ih => intro buf off; simp [setSlice, ih]

theorem setSlice_getElem?_frame (xs : List Nat) :
    ∀ (buf : List Nat) (off i : Nat), i < off ∨ off + xs.length ≤ i →
      (setSlice buf off xs)[i]? = buf[i]? := by
  induction xs with
  | nil => intro buf off i _; rfl
  | cons x xs ih =>
      intro buf off i h
      have h2 : i < off + 1 ∨ off + 1 + xs.length ≤ i := by
        simp only [List.length_cons] at h; omega
      have h3 : off ≠ i := by simp only [List.length_cons] at h; omega
      calc (setSlice buf off (x :: xs))[i]?
          = (buf.set off x)[i]? := ih (buf.set off x) (off + 1) i h2
        _ = buf[i]? := List.getElem?_set_ne h3

theorem setSlice_getD_frame (xs : List Nat) (buf : List Nat) (off i : Nat)
    (h : i < off ∨ off + xs.length ≤ i) :
    (setSlice buf off xs).getD i 0 = buf.getD i 0 := by
  simp [List.getD_eq_getElem?_getD, setSlice_getElem?_frame xs buf off i h]

theorem setSlice_getElem?_in (xs : List Nat) :
    ∀ (buf : List Nat) (off k : Nat), k < xs.length → off + xs.length ≤ buf.length →
      (setSlice buf off xs)[off + k]? = xs[k]? := by
  induction xs with
  | nil => intro buf off k h _; simp at h
  | cons x xs ih =>
      intro buf off k hk hlen
      simp only [List.length_cons] at hk hlen
      cases k with
      | zero =>
          have hfr : off + 0 < off + 1 ∨ off + 1 + xs.length ≤ off + 0 := by omega
          calc (setSlice buf off (x :: xs))[off + 0]?
              = (buf.set off x)[off + 0]? := setSlice_getElem?_frame xs _ _ _ hfr
            _ = some x := by
                have : off < buf.length := by omega
                simpa using List.getElem?_set_self (l := buf) (a := x) this
            _ = (x :: xs)[0]? := by simp
      | succ k =>
          have h1 : (off + 1) + k = off + (k + 1) := by omega
          have h2 : (off + 1) + xs.length ≤ (buf.set off x).length := by
            simp only [List.length_set]; omega
          calc (setSlice buf off (x :: xs))[off + (k + 1)]?
              = (setSlice (buf.set off x) (off + 1) xs)[(off + 1) + k]? := by
                rw [setSlice, h1]
            _ = xs[k]? := ih (buf.set off x) (off + 1) k (by omega) h2
            _ = (x :: xs)[k + 1]? := by simp

theorem setSlice_set_comm (xs : List Nat) :
    ∀ (buf : List Nat) (off i : Nat) (y : Nat), i < off →
      (setSlice buf off xs).set i y = setSlice (buf.set i y) off xs := by
  induction xs with
  | nil => intro buf off i y _; rfl
  | cons x xs ih =>
      intro buf off i y hi
      calc (setSlice (buf.set off x) (off + 1) xs).set i y
          = setSlice ((buf.set off x).set i y) (off + 1) xs := ih _ _ _ _ (by omega)
        _ = setSlice ((buf.set i y).set off x) (off + 1) xs := by
            rw [List.set_comm _ _ _ (by omega : off ≠ i)]

theorem setSlice_setSlice (xs : List Nat) :
    ∀ (ys buf : List Nat) (off : Nat), xs.length = ys.length →
      setSlice (setSlice buf off xs) off ys = setSlice buf off ys := by
  induction xs with
  | nil => intro ys buf off h
           cases ys with
           | nil => rfl
           | cons y ys => simp at h
  | cons x xs ih =>
      intro ys buf off h
      cases ys with
      | nil => simp at h
      | cons y ys =>
          simp only [List.length_cons] at h
          calc setSlice (setSlice buf off (x :: xs)) off (y :: ys)
              = setSlice ((setSlice (buf.set off x) (off + 1) xs).set off y) (off + 1) ys := rfl
            _ = setSlice (setSlice ((buf.set off x).set off y) (off + 1) xs) (off + 1) ys := by
                rw [setSlice_set_comm xs _ _ _ _ (by omega)]
            _ = setSlice (setSlice (buf.set off y) (off + 1) xs) (off + 1) ys := by
                rw [List.set_set]
            _ = setSlice (buf.set off y) (off + 1) ys := ih ys _ _ (by omega)
            _ = setSlice buf off (y :: ys) := rfl

theorem writeLE32_length (buf : List Nat) (off v : Nat) :
    (writeLE32 buf off v).length = buf.length := by
  simp [writeLE32, setSlice_length]

theorem writeLE32_getElem?_frame (buf : List Nat) (off v i : Nat)
    (h : i < off ∨ off + 4 ≤ i) : (writeLE32 buf off v)[i]? = buf[i]? := by
  exact setSlice_getElem?_frame _ buf off i (by simpa using h)

theorem writeLE32_getD_frame (buf : List Nat) (off v i : Nat)
    (h : i < off ∨ off + 4 ≤ i) : (writeLE32 buf off v).getD i 0 = buf.getD i 0 := by
  simp [List.getD_eq_getElem?_getD, writeLE32_getElem?_frame buf off v i h]

theorem zeroSlice_writeLE32 (buf : List Nat) (off v : Nat) :
    zeroSlice (writeLE32 buf off v) off 4 = zeroSlice buf off 4 := by
  exact setSlice_setSlice _ _ buf off (by simp)

theorem add_languages_nodup (ls : List Nat) (l : Nat) (h : ls.Nodup) :
    (PeClone.add_languages ls l).Nodup := by
  unfold PeClone.add_languages
  split
  · exact h
  · rename_i hm
    simpa [List.concat_eq_append] using List.Nodup.concat hm h

theorem add_languages_mem (ls : List Nat) (l x : Nat) (h : x ∈ ls) :
    x ∈ PeClone.add_languages ls l := by
  unfold PeClone.add_languages
  split
  · exact h
  · exact List.mem_append_left _ h

theorem add_languages_mem_self (ls : List Nat) (l : Nat) :
    l ∈ PeClone.add_languages ls l := by
  unfold PeClone.add_languages
  split
  · assumption
  · exact List.mem_append_right _ (List.mem_singleton.mpr rfl)

theorem accLangs_nodup (reported : List Nat) :
    ∀ init : List Nat, init.Nodup → (PeClone.accLangs init reported).Nodup := by
  induction reported with
  | nil => intro init h; exact h
  | cons r rest ih =>
      intro init h
      exact ih (PeClone.add_languages init r) (add_languages_nodup init r h)

theorem accLangs_mem_init (reported : List Nat) :
    ∀ init l, l ∈ init → l ∈ PeClone.accLangs init reported := by
  induction reported with
  | nil => intro init l h; exact h
  | cons r rest ih =>
      intro init l h
      exact ih (PeClone.add_languages init r) l (add_languages_mem init r l h)

theorem accLangs_mem_reported (reported : List Nat) :
    ∀ init l, l ∈ reported → l ∈ PeClone.accLangs init reported := by
  induction reported with
  | nil => intro init l h; simp at h
  | cons r rest ih =>
      intro init l h
      rcases List.mem_cons.mp h with rfl | htail
      · exact accLangs_mem_init rest _ l (add_languages_mem_self init l)
      · exact ih (PeClone.add_languages init r) l htail

theorem accLangs_extends (reported : List Nat) :
    ∀ init : List Nat, ∃ rest, PeClone.accLangs init reported = init ++ rest := by
  induction reported with
  | nil => intro init; exact ⟨[], by simp [PeClone.accLangs]⟩
  | cons r rest ih =>
      intro init
      have hstep : PeClone.accLangs init (r :: rest) =
          PeClone.accLangs (PeClone.add_languages init r) rest := rfl
      obtain ⟨tail, htail⟩ := ih (PeClone.add_languages init r)
      by_cases hm : r ∈ init
      · refine ⟨tail, ?_⟩
        rw [hstep, htail]
        simp only [PeClone.add_languages, if_pos hm]
      · refine ⟨r :: tail, ?_⟩
        rw [hstep, htail]
        simp only [PeClone.add_languages, if_neg hm]
        simp

/-- Claim C10.  The per-instance languages list only grows across
resources (never cleared), stays duplicate-free, and processing one
resource (res_type, res_name) appends exactly one record per language
in the TOTAL accumulated list - every record carrying the single data
blob that the language-less FindResourceW lookup returns for the
(name, type) pair, so all language variants of one resource get
identical bytes. -/
theorem c10_languages_accumulation (img : SourceImage) (acc : CloneAcc)
    (res_type res_name : Nat) (h : acc.languages.Nodup) :
    (∃ rest, (PeClone.add_resources img acc res_type res_name).languages =
        acc.languages ++ rest) ∧
    (PeClone.add_resources img acc res_type res_name).languages.Nodup ∧
    (PeClone.add_resources img acc res_type res_name).resources =
      acc.resources ++ ((PeClone.add_resources img acc res_type res_name).languages).map
        (fun res_lang =>
          { res_type := res_type, res_name := res_name, res_lang := res_lang,
            res_data := img.findData res_type res_name,
            res_size := (img.findData res_type res_name).length }) :=
  ⟨accLangs_extends (img.langs res_type res_name) acc.languages,
   accLangs_nodup (img.langs res_type res_name) acc.languages h,
   rfl⟩

/-- Witness for C10 at a concrete input: language 7 was observed for an
earlier resource; the new resource reports only language 5, yet two
records are appended, one for 7 and one for 5, with identical bytes
from the (name, type) lookup. -/
theorem c10_languages_accumulation_witness :
    (∃ rest, (PeClone.add_resources oneLangImage accSeen7 3 1).languages =
        accSeen7.languages ++ rest) ∧
    (PeClone.add_resources oneLangImage accSeen7 3 1).languages.Nodup ∧
    (PeClone.add_resources oneLangImage accSeen7 3 1).resources =
      accSeen7.resources ++ ((PeClone.add_resources oneLangImage accSeen7 3 1).languages).map
        (fun res_lang =>
          { res_type := 3, res_name := 1, res_lang := res_lang,
            res_data := oneLangImage.findData 3 1,
            res_size := (oneLangImage.findData 3 1).length }) :=
  c10_languages_accumulation oneLangImage accSeen7 3 1 (by decide)

theorem lookupDir_updateResource (dir : ResDir) (k0 k : Nat × Nat × Nat) (d : List Nat) :
    lookupDir (updateResource dir k0 d) k =
      if k0 = k then some d else lookupDir dir k := by
  induction dir with
  | nil =>
      by_cases h : k0 = k <;> simp [updateResource, lookupDir, h]
  | cons p rest ih =>
      obtain ⟨kp, dp⟩ := p
      by_cases h1 : kp = k0
      · subst h1
        by_cases h2 : kp = k <;> simp [updateResource, lookupDir, h2]
      · by_cases h2 : kp = k
        · subst h2
          have h3 : ¬ k0 = kp := fun he => h1 he.symm
          simp [updateResource, lookupDir, h1, h3]
        · simp [updateResource, lookupDir, h1, h2, ih]

/-- Amended claim C2.  The Writer step is an update-merge, not a
replacement: since BeginUpdateResourceW is called with
bDeleteExistingResources = False, a key present in the collected list
ends with its last collected data, while a key absent from the
collected list keeps whatever the destination image already had for
it. -/
theorem c2_amended_merge (destDir : ResDir) (rs : List ResourceRecord)
    (k : Nat × Nat × Nat) :
    lookupDir (endUpdateResourceW destDir rs) k =
      match lastData rs k with
      | some d => some d
      | none => lookupDir destDir k := by
  induction rs generalizing destDir with
  | nil => rfl
  | cons r rest ih =>
      have step : endUpdateResourceW destDir (r :: rest) =
          endUpdateResourceW
            (updateResource destDir (r.res_type, r.res_name, r.res_lang) r.res_data)
            rest := rfl
      rw [step, ih]
      cases h : lastData rest k with
      | some d => simp [lastData, h]
      | none =>
          by_cases hk : (r.res_type, r.res_name, r.res_lang) = k <;>
            simp [lastData, h, lookupDir_updateResource, hk]

/-- Counterexample to claim C2 as stated: with an empty collected entry
list (the source has no resources) the output directory is NOT an
empty replacement - the destination-originated entry (4, 1, 0), never
collected from the source, survives in the output. -/
theorem c2_counterexample :
    (PeClone.load_resources emptyImage PeClone.RESOURCE_TYPES).resources = [] ∧
    endUpdateResourceW [((4, 1, 0), [9])]
      (PeClone.load_resources emptyImage PeClone.RESOURCE_TYPES).resources =
      [((4, 1, 0), [9])] :=
  ⟨rfl, rfl⟩

/-- Counterexample to claim C3 as stated: a run whose checksum step
(step 5) fails still leaves the verbatim destination copy persisted at
the output path, because shutil.copy2 runs before anything else. -/
theorem c3_counterexample :
    clone_run none shortDest emptySource PeClone.RESOURCE_TYPES (fun b _ => b) =
      (some shortDest, Except.error (CloneErr.patch PatchErr.sliceAssign)) := rfl

/-- Amended claim C3.  Whatever happens in the later steps and whatever
the external writer does to the file, the output path holds a file
from the moment the copy step ran: no run, failed or successful, ends
with nothing persisted. -/
theorem c3_amended_persist (prior : Option (List Nat)) (dest : List Nat)
    (src : RawSource) (allow : List Nat)
    (writerEffect : List Nat → List ResourceRecord → List Nat) :
    ((clone_run prior dest src allow writerEffect).fst).isSome = true := by
  cases hr : read_resources src allow with
  | error e => simp [clone_run, hr]
  | ok recs =>
      cases hp : checksum_patch (writerEffect dest recs) with
      | error e => simp [clone_run, hr, hp]
      | ok b => simp [clone_run, hr, hp]

/-- Claim C8.  Running the clone sequence again with the same inputs,
with the output path holding whatever the first run left there,
produces exactly the result of the first run: the pipeline is a function of
the source and destination contents alone, since the copy step
overwrites the output path without reading it. -/
theorem c8_determinism (p0 : Option (List Nat)) (dest : List Nat) (src : RawSource)
    (allow : List Nat) (writerEffect : List Nat → List ResourceRecord → List Nat) :
    clone_run ((clone_run p0 dest src allow writerEffect).fst) dest src allow writerEffect =
      clone_run p0 dest src allow writerEffect := rfl

/-- Claim C7 evaluated at the failing input: on a 0x5b-byte buffer with
no PE signature the patch step does not fail and does not raise any
UnsupportedImageError - mmap.find returns -1, the field offset becomes
0x57, and the four bytes at 0x57..0x5a are overwritten with the zero
checksum left by the failed (and unchecked) MapFileAndCheckSumW call. -/
theorem c7_code_evaluation :
    findSig noSigBuf = -1 ∧
    checksum_patch noSigBuf = Except.ok noSigBufPatched ∧
    noSigBufPatched.getD 0x57 0 = 0 ∧
    noSigBuf.getD 0x57 0 = 0xAA ∧
    noSigBufPatched.length = noSigBuf.length :=
  ⟨by decide, rfl, by decide, by decide, by decide⟩

theorem readLangs_error (buf : List Nat) (cat nm lg off len : Nat) :
    ∀ ls : List (Nat × Nat × Nat), (lg, off, len) ∈ ls → buf.length < off + len →
      readLangs buf cat nm ls = Except.error ReadErr.boundsExceeded := by
  intro ls
  induction ls with
  | nil => intro h _; simp at h
  | cons p rest ih =>
      intro hmem hoob
      obtain ⟨l0, o0, n0⟩ := p
      rcases List.mem_cons.mp hmem with heq | htail
      · simp only [Prod.mk.injEq] at heq
        obtain ⟨rfl, rfl, rfl⟩ := heq
        have hno : ¬ (off + len ≤ buf.length) := by omega
        simp [readLangs, read_leaf, hno]
      · cases hd : read_leaf buf o0 n0 with
        | error e => cases e; simp [readLangs, hd]
        | ok d => simp [readLangs, hd, ih htail hoob]

theorem readNames_error (buf : List Nat) (cat nm lg off len : Nat)
    (nmLangs : List (Nat × Nat × Nat)) :
    ∀ ns : List (Nat × List (Nat × Nat × Nat)), (nm, nmLangs) ∈ ns →
      (lg, off, len) ∈ nmLangs → buf.length < off + len →
      readNames buf cat ns = Except.error ReadErr.boundsExceeded := by
  intro ns
  induction ns with
  | nil => intro h _ _; simp at h
  | cons p rest ih =>
      intro hmem hlm hoob
      obtain ⟨n0, ls0⟩ := p
      rcases List.mem_cons.mp hmem with heq | htail
      · simp only [Prod.mk.injEq] at heq
        obtain ⟨rfl, rfl⟩ := heq
        simp [readNames, readLangs_error buf cat nm lg off len nmLangs hlm hoob]
      · cases hd : readLangs buf cat n0 ls0 with
        | error e => cases e; simp [readNames, hd]
        | ok here => simp [readNames, hd, ih htail hlm hoob]

theorem readCats_error (buf allow : List Nat) (cat nm lg off len : Nat)
    (catNames : List (Nat × List (Nat × Nat × Nat))) (nmLangs : List (Nat × Nat × Nat)) :
    ∀ tree : List (Nat × List (Nat × List (Nat × Nat × Nat))),
      (cat, catNames) ∈ tree → cat ∈ allow → (nm, nmLangs) ∈ catNames →
      (lg, off, len) ∈ nmLangs → buf.length < off + len →
      readCats buf allow tree = Except.error ReadErr.boundsExceeded := by
  intro tree
  induction tree with
  | nil => intro h _ _ _ _; simp at h
  | cons p rest ih =>
      intro hmem hallow hns hlm hoob
      obtain ⟨c0, ns0⟩ := p
      rcases List.mem_cons.mp hmem with heq | htail
      · simp only [Prod.mk.injEq] at heq
        obtain ⟨rfl, rfl⟩ := heq
        simp [readCats, hallow,
          readNames_error buf cat nm lg off len nmLangs catNames hns hlm hoob]
      · by_cases hc : c0 ∈ allow
        · cases hd : readNames buf c0 ns0 with
          | error e => cases e; simp [readCats, hc, hd]
          | ok here => simp [readCats, hc, hd, ih htail hallow hns hlm hoob]
        · simp [readCats, hc, ih htail hallow hns hlm hoob]

/-- Amended claim C9.  When the source directory holds an allow-listed
entry whose resolved offset plus declared length exceeds the buffer
bound, the spec-modelled Reader fails with the malformed-directory
error without indexing past the buffer (every access in the model is a
bounds-checked slice) and the clone aborts with that error - but the
output path is NOT left empty: it holds the verbatim destination copy
persisted by the first step. -/
theorem c9_amended_reader (prior : Option (List Nat)) (dest : List Nat) (src : RawSource)
    (allow : List Nat) (writerEffect : List Nat → List ResourceRecord → List Nat)
    (cat nm lg off len : Nat)
    (catNames : List (Nat × List (Nat × Nat × Nat))) (nmLangs : List (Nat × Nat × Nat))
    (h1 : (cat, catNames) ∈ src.tree) (h2 : cat ∈ allow)
    (h3 : (nm, nmLangs) ∈ catNames) (h4 : (lg, off, len) ∈ nmLangs)
    (h5 : src.bytes.length < off + len) :
    clone_run prior dest src allow writerEffect =
      (some dest, Except.error (CloneErr.reader ReadErr.boundsExceeded)) := by
  have hr : read_resources src allow = Except.error ReadErr.boundsExceeded :=
    readCats_error src.bytes allow cat nm lg off len catNames nmLangs src.tree h1 h2 h3 h4 h5
  simp [clone_run, hr]

/-- Witness for the amended C9 at a concrete out-of-bounds source. -/
theorem c9_amended_reader_witness :
    clone_run none [7] oobSource [3] (fun b _ => b) =
      (some [7], Except.error (CloneErr.reader ReadErr.boundsExceeded)) :=
  c9_amended_reader none [7] oobSource [3] (fun b _ => b) 3 1 0x409 4 8
    [(1, [(0x409, 4, 8)])] [(0x409, 4, 8)]
    (by decide) (by decide) (by decide) (by decide) (by decide)

/-- Counterexample to claim C9 as stated: on a source whose leaf
declares offset 4 and length 8 against an 8-byte buffer, the reader
does fail with the malformed-directory error, yet the output path is
not empty - the destination copy was persisted before the reader ran,
refuting the conjunct that no output is persisted. -/
theorem c9_counterexample :
    read_resources oobSource PeClone.RESOURCE_TYPES = Except.error ReadErr.boundsExceeded ∧
    clone_run none shortDest oobSource PeClone.RESOURCE_TYPES (fun b _ => b) =
      (some shortDest, Except.error (CloneErr.reader ReadErr.boundsExceeded)) :=
  ⟨rfl, rfl⟩

theorem load_inner_provenance (img : SourceImage) (ty : Nat) :
    ∀ (ns : List Nat) (acc : CloneAcc) (r : ResourceRecord),
      r ∈ (ns.foldl (fun a n => PeClone.add_resources img a ty n) acc).resources →
      r ∈ acc.resources ∨
        (r.res_type = ty ∧ r.res_data = img.findData ty r.res_name ∧
         r.res_size = r.res_data.length) := by
  intro ns
  induction ns with
  | nil => intro acc r h; exact Or.inl h
  | cons n rest ih =>
      intro acc r h
      rcases ih (PeClone.add_resources img acc ty n) r h with hacc | hprop
      · simp only [PeClone.add_resources, List.mem_append, List.mem_map] at hacc
        rcases hacc with h1 | ⟨lg, _, rfl⟩
        · exact Or.inl h1
        · exact Or.inr ⟨rfl, rfl, rfl⟩
      · exact Or.inr hprop

theorem load_outer_provenance (img : SourceImage) (types0 : List Nat) :
    ∀ (ts : List Nat) (acc : CloneAcc) (r : ResourceRecord),
      (∀ t ∈ ts, t ∈ types0) →
      r ∈ (ts.foldl (fun a t => (img.names t).foldl
          (fun a2 n => PeClone.add_resources img a2 t n) a) acc).resources →
      r ∈ acc.resources ∨
        (r.res_type ∈ types0 ∧ r.res_data = img.findData r.res_type r.res_name ∧
         r.res_size = r.res_data.length) := by
  intro ts
  induction ts with
  | nil => intro acc r _ h; exact Or.inl h
  | cons t rest ih =>
      intro acc r hsub h
      rcases ih _ r (fun x hx => hsub x (List.mem_cons_of_mem t hx)) h with hacc | hprop
      · rcases load_inner_provenance img t (img.names t) acc r hacc with h1 | h2
        · exact Or.inl h1
        · obtain ⟨hty, hdata, hsize⟩ := h2
          refine Or.inr ⟨?_, ?_, hsize⟩
          · rw [hty]; exact hsub t (List.mem_cons_self t rest)
          · rw [hty]; exact hdata
      · exact Or.inr hprop

/-- Amended claim C4.  Every record the code collects from the source
has its category in the configured allow-list (whose default is exactly
bitmap, icon, cursor-group, icon-group, version-info, manifest) - but
this governs only what is COLLECTED from the source: entries already
present in the destination image survive the update session whatever
their category, since existing resources are not deleted. -/
theorem c4_amended_allowlist (img : SourceImage) (res_types : List Nat)
    (r : ResourceRecord)
    (h : r ∈ (PeClone.load_resources img res_types).resources) :
    r.res_type ∈ res_types ∧
    (∀ t : Nat, t ∈ PeClone.RESOURCE_TYPES ↔
      (t = ResourceTypes.RT_BITMAP ∨ t = ResourceTypes.RT_ICON ∨
       t = ResourceTypes.RT_GROUP_CURSOR ∨ t = ResourceTypes.RT_GROUP_ICON ∨
       t = ResourceTypes.RT_VERSION ∨ t = ResourceTypes.RT_MANIFEST)) := by
  constructor
  · rcases load_outer_provenance img res_types res_types
        { resources := [], languages := [] } r (fun _ ht => ht) h with h1 | h2
    · simp at h1
    · exact h2.1
  · intro t
    simp [PeClone.RESOURCE_TYPES, ResourceTypes.RT_BITMAP, ResourceTypes.RT_ICON,
      ResourceTypes.RT_GROUP_CURSOR, ResourceTypes.RT_GROUP_ICON,
      ResourceTypes.RT_VERSION, ResourceTypes.RT_MANIFEST]

/-- Witness for the amended C4 at a concrete input. -/
theorem c4_amended_allowlist_witness :
    ({ res_type := 3, res_name := 1, res_lang := 0, res_data := [1], res_size := 1 } :
        ResourceRecord).res_type ∈ [3] ∧
    (∀ t : Nat, t ∈ PeClone.RESOURCE_TYPES ↔
      (t = ResourceTypes.RT_BITMAP ∨ t = ResourceTypes.RT_ICON ∨
       t = ResourceTypes.RT_GROUP_CURSOR ∨ t = ResourceTypes.RT_GROUP_ICON ∨
       t = ResourceTypes.RT_VERSION ∨ t = ResourceTypes.RT_MANIFEST)) :=
  c4_amended_allowlist iconImage [3]
    { res_type := 3, res_name := 1, res_lang := 0, res_data := [1], res_size := 1 }
    (by decide)

/-- Counterexample to claim C4 as stated: with the default allow-list
and a source with no resources at all, an entry of category 4 (RT_MENU,
not in the allow-list) present in the destination image appears in the
output directory, because the update session keeps existing
resources. -/
theorem c4_counterexample :
    ((4, 1, 0), [9]) ∈ endUpdateResourceW [((4, 1, 0), [9])]
      (PeClone.load_resources emptyImage PeClone.RESOURCE_TYPES).resources ∧
    (4 : Nat) ∉ PeClone.RESOURCE_TYPES := by
  exact ⟨by decide, by decide⟩

theorem countKey_append (a b : List ResourceRecord) (t n l : Nat) :
    countKey (a ++ b) t n l = countKey a t n l + countKey b t n l := by
  simp [countKey, List.filter_append]

theorem countKey_block (ls : List Nat) (ty nm : Nat) (d : List Nat) (sz t n l : Nat) :
    countKey (ls.map (fun lg =>
        { res_type := ty, res_name := nm, res_lang := lg,
          res_data := d, res_size := sz })) t n l =
      if ty = t ∧ nm = n then ls.count l else 0 := by
  induction ls with
  | nil => split <;> simp [countKey]
  | cons x xs ih =>
      by_cases hty : ty = t <;> by_cases hnm : nm = n <;> by_cases hx : x = l <;>
        simp [countKey, List.filter_cons, List.count_cons, hty, hnm, hx] at ih ⊢ <;>
        omega

theorem countKey_add_resources (img : SourceImage) (acc : CloneAcc) (ty nm t n l : Nat) :
    countKey (PeClone.add_resources img acc ty nm).resources t n l =
      countKey acc.resources t n l +
        (if ty = t ∧ nm = n then
          (PeClone.accLangs acc.languages (img.langs ty nm)).count l else 0) := by
  have h : (PeClone.add_resources img acc ty nm).resources =
      acc.resources ++ (PeClone.accLangs acc.languages (img.langs ty nm)).map
        (fun lg => { res_type := ty, res_name := nm, res_lang := lg,
                     res_data := img.findData ty nm,
                     res_size := (img.findData ty nm).length }) := rfl
  rw [h, countKey_append, countKey_block]

theorem countKey_inner_ne_type (img : SourceImage) (ty t n l : Nat) (hne : ty ≠ t) :
    ∀ (ns : List Nat) (acc : CloneAcc),
      countKey ((ns.foldl (fun a nm => PeClone.add_resources img a ty nm) acc).resources)
          t n l =
        countKey acc.resources t n l := by
  intro ns
  induction ns with
  | nil => intro acc; rfl
  | cons nm rest ih =>
      intro acc
      rw [List.foldl_cons, ih, countKey_add_resources]
      simp [hne]

theorem countKey_inner_notmem (img : SourceImage) (ty t n l : Nat) :
    ∀ (ns : List Nat) (acc : CloneAcc), n ∉ ns →
      countKey ((ns.foldl (fun a nm => PeClone.add_resources img a ty nm) acc).resources)
          t n l =
        countKey acc.resources t n l := by
  intro ns
  induction ns with
  | nil => intro acc _; rfl
  | cons nm rest ih =>
      intro acc hnm
      have h1 : nm ≠ n := fun he => hnm (he ▸ List.mem_cons_self nm rest)
      have h2 : n ∉ rest := fun he => hnm (List.mem_cons_of_mem nm he)
      rw [List.foldl_cons, ih _ h2, countKey_add_resources]
      simp [h1]

theorem languages_inner_nodup (img : SourceImage) (ty : Nat) :
    ∀ (ns : List Nat) (acc : CloneAcc), acc.languages.Nodup →
      ((ns.foldl (fun a nm => PeClone.add_resources img a ty nm) acc).languages).Nodup := by
  intro ns
  induction ns with
  | nil => intro acc h; exact h
  | cons nm rest ih =>
      intro acc h
      exact ih (PeClone.add_resources img acc ty nm)
        (accLangs_nodup (img.langs ty nm) acc.languages h)

theorem countKey_inner_main (img : SourceImage) (ty n l : Nat) :
    ∀ (ns : List Nat) (acc : CloneAcc), ns.Nodup → acc.languages.Nodup →
      n ∈ ns → l ∈ img.langs ty n →
      countKey ((ns.foldl (fun a nm => PeClone.add_resources img a ty nm) acc).resources)
          ty n l =
        countKey acc.resources ty n l + 1 := by
  intro ns
  induction ns with
  | nil => intro acc _ _ h _; simp at h
  | cons nm rest ih =>
      intro acc hnd hlnd hmem hlang
      rw [List.foldl_cons]
      rcases List.mem_cons.mp hmem with rfl | htail
      · have hnotin : n ∉ rest := (List.nodup_cons.mp hnd).1
        rw [countKey_inner_notmem img ty ty n l rest _ hnotin, countKey_add_resources]
        have hcnt : (PeClone.accLangs acc.languages (img.langs ty n)).count l = 1 :=
          List.count_eq_one_of_mem
            (accLangs_nodup (img.langs ty n) acc.languages hlnd)
            (accLangs_mem_reported (img.langs ty n) acc.languages l hlang)
        simp [hcnt]
      · have hne : nm ≠ n := by
          rintro rfl
          exact (List.nodup_cons.mp hnd).1 htail
        rw [ih (PeClone.add_resources img acc ty nm) (List.nodup_cons.mp hnd).2
            (accLangs_nodup (img.langs ty nm) acc.languages hlnd) htail hlang,
          countKey_add_resources]
        simp [hne]

theorem countKey_outer_skip (img : SourceImage) (t n l : Nat) :
    ∀ (ts : List Nat) (acc : CloneAcc), t ∉ ts →
      countKey ((ts.foldl (fun a ty => (img.names ty).foldl
          (fun a2 nm => PeClone.add_resources img a2 ty nm) a) acc).resources) t n l =
        countKey acc.resources t n l := by
  intro ts
  induction ts with
  | nil => intro acc _; rfl
  | cons ty rest ih =>
      intro acc hts
      have h1 : ty ≠ t := fun he => hts (he ▸ List.mem_cons_self ty rest)
      have h2 : t ∉ rest := fun he => hts (List.mem_cons_of_mem ty he)
      rw [List.foldl_cons, ih _ h2, countKey_inner_ne_type img ty t n l h1]

theorem countKey_outer_main (img : SourceImage) (t n l : Nat) :
    ∀ (ts : List Nat) (acc : CloneAcc), ts.Nodup → acc.languages.Nodup →
      (img.names t).Nodup → t ∈ ts → n ∈ img.names t → l ∈ img.langs t n →
      countKey ((ts.foldl (fun a ty => (img.names ty).foldl
          (fun a2 nm => PeClone.add_resources img a2 ty nm) a) acc).resources) t n l =
        countKey acc.resources t n l + 1 := by
  intro ts
  induction ts with
  | nil => intro acc _ _ _ h _ _; simp at h
  | cons ty rest ih =>
      intro acc hnd hlnd hnn hmem hname hlang
      rw [List.foldl_cons]
      rcases List.mem_cons.mp hmem with rfl | htail
      · have hnotin : t ∉ rest := (List.nodup_cons.mp hnd).1
        rw [countKey_outer_skip img t n l rest _ hnotin,
          countKey_inner_main img t n l (img.names t) acc hnn hlnd hname hlang]
      · have hne : ty ≠ t := by
          rintro rfl
          exact (List.nodup_cons.mp hnd).1 htail
        rw [ih _ (List.nodup_cons.mp hnd).2
            (languages_inner_nodup img ty (img.names ty) acc hlnd) hnn htail hname hlang,
          countKey_inner_ne_type img ty t n l hne]

/-- Amended claim C5.  For every allow-listed category present in the
source and every (name, language) variant of it, the collected list
holds the (category, name, language) tuple exactly once - but the raw
bytes attached to every record of a (category, name) pair are the one
blob the language-less FindResourceW lookup returns, so byte-identity
with the per-language source entry holds only when all language
variants of that pair carry the same bytes. -/
theorem c5_amended_collect (img : SourceImage) (res_types : List Nat) (ty nm lg : Nat)
    (hT : res_types.Nodup) (hN : (img.names ty).Nodup)
    (h1 : ty ∈ res_types) (h2 : nm ∈ img.names ty) (h3 : lg ∈ img.langs ty nm) :
    countKey (PeClone.load_resources img res_types).resources ty nm lg = 1 ∧
    ∀ r ∈ (PeClone.load_resources img res_types).resources,
      r.res_data = img.findData r.res_type r.res_name := by
  constructor
  · have h := countKey_outer_main img ty nm lg res_types
      { resources := [], languages := [] } hT (by simp) hN h1 h2 h3
    simpa [countKey] using h
  · intro r hr
    rcases load_outer_provenance img res_types res_types
        { resources := [], languages := [] } r (fun _ ht => ht) hr with h | h
    · simp at h
    · exact h.2.1

/-- Witness for the amended C5 at a concrete input. -/
theorem c5_amended_collect_witness :
    countKey (PeClone.load_resources iconImage [3]).resources 3 1 0 = 1 ∧
    ∀ r ∈ (PeClone.load_resources iconImage [3]).resources,
      r.res_data = iconImage.findData r.res_type r.res_name :=
  c5_amended_collect iconImage [3] 3 1 0 (by decide) (by decide) (by decide)
    (by decide) (by decide)

/-- Counterexample to claim C5 as stated: the source resource
(category 3, name 7) has two language variants, 1033 with bytes [1] and
1034 with bytes [2].  The output directory does contain an entry for
(3, 7, 1034), but its bytes are [1] - the single blob FindResourceW
returned for the (name, category) pair - not the [2] the source stores
for language 1034. -/
theorem c5_counterexample :
    lookupDir (endUpdateResourceW []
        (PeClone.load_resources twoLangImage PeClone.RESOURCE_TYPES).resources)
      (3, 7, 1034) = some [1] ∧
    twoLangImage.dataAt 3 7 1034 = [2] ∧
    ([1] : List Nat) ≠ [2] :=
  ⟨rfl, rfl, by decide⟩

theorem zeroSlice_length (buf : List Nat) (off n : Nat) :
    (zeroSlice buf off n).length = buf.length := by
  simp [zeroSlice, setSlice_length]

theorem pe_checksum_lt (buf : List Nat) : pe_checksum buf < 65536 + buf.length := by
  unfold pe_checksum
  have h : csum_fold ((words16 buf).foldl (fun a w => csum_fold (a + w)) 0) % 65536 < 65536 :=
    Nat.mod_lt _ (by omega)
  omega

theorem getD_append_left (a b : List Nat) (i : Nat) (h : i < a.length) :
    (a ++ b).getD i 0 = a.getD i 0 := by
  simp [List.getD_eq_getElem?_getD, List.getElem?_append, h]

theorem writeLE32_getD_in (buf : List Nat) (off v k : Nat) (hk : k < 4)
    (hlen : off + 4 ≤ buf.length) :
    (writeLE32 buf off v).getD (off + k) 0 =
      [v % 256, v / 256 % 256, v / 65536 % 256, v / 16777216 % 256].getD k 0 := by
  have h := setSlice_getElem?_in
    [v % 256, v / 256 % 256, v / 65536 % 256, v / 16777216 % 256] buf off k
    (by simpa using hk) (by simpa using hlen)
  unfold writeLE32
  rw [List.getD_eq_getElem?_getD, List.getD_eq_getElem?_getD, h]

theorem readLE32_writeLE32 (buf : List Nat) (off v : Nat) (hlen : off + 4 ≤ buf.length) :
    readLE32 (writeLE32 buf off v) off = v % 4294967296 := by
  have g0 := writeLE32_getD_in buf off v 0 (by omega) hlen
  have g1 := writeLE32_getD_in buf off v 1 (by omega) hlen
  have g2 := writeLE32_getD_in buf off v 2 (by omega) hlen
  have g3 := writeLE32_getD_in buf off v 3 (by omega) hlen
  have g0' : (writeLE32 buf off v).getD off 0 = v % 256 := by simpa using g0
  have g1' : (writeLE32 buf off v).getD (off + 1) 0 = v / 256 % 256 := by simpa using g1
  have g2' : (writeLE32 buf off v).getD (off + 2) 0 = v / 65536 % 256 := by simpa using g2
  have g3' : (writeLE32 buf off v).getD (off + 3) 0 = v / 16777216 % 256 := by
    simpa using g3
  unfold readLE32
  rw [g0', g1', g2', g3']
  omega

theorem sigAt_congr (b c : List Nat) (i : Nat) (hlen : b.length = c.length)
    (h0 : b.getD i 0 = c.getD i 0) (h1 : b.getD (i + 1) 0 = c.getD (i + 1) 0)
    (h2 : b.getD (i + 2) 0 = c.getD (i + 2) 0)
    (h3 : b.getD (i + 3) 0 = c.getD (i + 3) 0) :
    sigAt b i = sigAt c i := by
  simp only [List.getD_eq_getElem?_getD] at h0 h1 h2 h3
  simp only [sigAt, hlen, List.getD_eq_getElem?_getD, h0, h1, h2, h3]

theorem findSigFrom_eq (buf : List Nat) :
    ∀ (fuel i k : Nat), i ≤ k → k < i + fuel → sigAt buf k = true →
      (∀ j, i ≤ j → j < k → sigAt buf j = false) →
      findSigFrom buf fuel i = (k : Int) := by
  intro fuel
  induction fuel with
  | zero => intro i k h1 h2 _ _; omega
  | succ fuel ih =>
      intro i k h1 h2 hk hmin
      by_cases hi : sigAt buf i = true
      · have hik : i = k := by
          by_contra hne
          have hlt : i < k := by omega
          have := hmin i (Nat.le_refl i) hlt
          rw [this] at hi
          exact Bool.noConfusion hi
        subst hik
        simp [findSigFrom, hi]
      · have := ih (i + 1) k (by
            rcases Nat.eq_or_lt_of_le h1 with rfl | hlt
            · exact absurd hk hi
            · omega) (by omega) hk (fun j hj1 hj2 => hmin j (by omega) hj2)
        simp [findSigFrom, hi, this]

theorem findSigFrom_inv (buf : List Nat) :
    ∀ (fuel i k : Nat), findSigFrom buf fuel i = (k : Int) →
      sigAt buf k = true ∧ (∀ j, i ≤ j → j < k → sigAt buf j = false) ∧ i ≤ k := by
  intro fuel
  induction fuel with
  | zero =>
      intro i k h
      exfalso
      simp only [findSigFrom] at h
      omega
  | succ fuel ih =>
      intro i k h
      by_cases hi : sigAt buf i = true
      · simp only [findSigFrom, hi, if_true] at h
        have hik : i = k := by exact_mod_cast h
        subst hik
        exact ⟨hi, fun j hj1 hj2 => absurd (Nat.lt_of_le_of_lt hj1 hj2) (Nat.lt_irrefl i),
          Nat.le_refl i⟩
      · simp only [findSigFrom, hi, if_false] at h
        obtain ⟨hk, hmin, hik⟩ := ih (i + 1) k h
        refine ⟨hk, ?_, by omega⟩
        intro j hj1 hj2
        rcases Nat.eq_or_lt_of_le hj1 with rfl | hlt
        · simpa using hi
        · exact hmin j (by omega) hj2

theorem findSig_eq (buf : List Nat) (k : Nat) (hk : k < buf.length)
    (hsig : sigAt buf k = true) (hmin : ∀ j, j < k → sigAt buf j = false) :
    findSig buf = (k : Int) :=
  findSigFrom_eq buf buf.length 0 k (Nat.zero_le k) (by omega) hsig
    (fun j _ hj => hmin j hj)

theorem findSig_inv (buf : List Nat) (k : Nat) (h : findSig buf = (k : Int)) :
    sigAt buf k = true ∧ ∀ j, j < k → sigAt buf j = false := by
  obtain ⟨h1, h2, _⟩ := findSigFrom_inv buf buf.length 0 k h
  exact ⟨h1, fun j hj => h2 j (Nat.zero_le j) hj⟩

/-- Amended claim C6.  On a buffer whose DOS header is valid and whose
FIRST occurrence of the PE signature is the real header start (the
assumption the source code comments and the design document both make),
a successful checksum step leaves a field at (first signature
occurrence) + 0x58 that equals the documented checksum algorithm run
over the output with that field zeroed. -/
theorem c6_amended_checksum (b o : List Nat)
    (hlen32 : b.length ≤ 2147483648)
    (hmz0 : b.getD 0 0 = 0x4d) (hmz1 : b.getD 1 0 = 0x5a)
    (hhdr : readLE32 b 0x3c + 0x5c ≤ b.length)
    (hsig : findSig b = ((readLE32 b 0x3c : Nat) : Int))
    (hrun : checksum_patch b = Except.ok o) :
    readLE32 o ((findSig o).toNat + 0x58) =
      pe_checksum (zeroSlice o ((findSig o).toNat + 0x58) 4) := by
  obtain ⟨hsigL, hmin⟩ := findSig_inv b (readLE32 b 0x3c) hsig
  have hL40 : 0x40 ≤ b.length := by omega
  have hmap : mapFileAndCheckSum b =
      some (pe_checksum (zeroSlice b (readLE32 b 0x3c + 0x58) 4) % 4294967296) := by
    simp only [mapFileAndCheckSum]
    rw [if_pos ⟨hL40, hmz0, hmz1⟩, if_pos ⟨hhdr, hsigL⟩]
  have hoff : (findSig b + 0x58).toNat = readLE32 b 0x3c + 0x58 := by
    rw [hsig]; omega
  have ho : o = writeLE32 b (readLE32 b 0x3c + 0x58)
      (pe_checksum (zeroSlice b (readLE32 b 0x3c + 0x58) 4) % 4294967296) := by
    simp only [checksum_patch, hmap, hoff, Option.getD_some] at hrun
    rw [if_pos (by omega : readLE32 b 0x3c + 0x58 + 4 ≤ b.length)] at hrun
    exact (Except.ok.inj hrun).symm
  have hleno : o.length = b.length := by rw [ho]; exact writeLE32_length _ _ _
  have hframe : ∀ j, j < readLE32 b 0x3c + 0x58 → o.getD j 0 = b.getD j 0 := by
    intro j hj
    rw [ho]
    exact writeLE32_getD_frame _ _ _ _ (Or.inl hj)
  have hsig_o : ∀ j, j + 3 < readLE32 b 0x3c + 0x58 → sigAt o j = sigAt b j := by
    intro j hj
    exact sigAt_congr o b j hleno (hframe j (by omega)) (hframe _ (by omega))
      (hframe _ (by omega)) (hframe _ (by omega))
  have hfind_o : findSig o = ((readLE32 b 0x3c : Nat) : Int) := by
    apply findSig_eq
    · rw [hleno]; omega
    · rw [hsig_o (readLE32 b 0x3c) (by omega)]; exact hsigL
    · intro j hj
      rw [hsig_o j (by omega)]
      exact hmin j hj
  have htoNat : (findSig o).toNat = readLE32 b 0x3c := by rw [hfind_o]; omega
  rw [htoNat]
  have hlhs : readLE32 o (readLE32 b 0x3c + 0x58) =
      pe_checksum (zeroSlice b (readLE32 b 0x3c + 0x58) 4) % 4294967296 % 4294967296 := by
    rw [ho]
    exact readLE32_writeLE32 b _ _ (by omega)
  have hz : zeroSlice o (readLE32 b 0x3c + 0x58) 4 =
      zeroSlice b (readLE32 b 0x3c + 0x58) 4 := by
    rw [ho]
    exact zeroSlice_writeLE32 b _ _
  rw [hlhs, hz]
  have hlt : pe_checksum (zeroSlice b (readLE32 b 0x3c + 0x58) 4) < 4294967296 := by
    have h1 := pe_checksum_lt (zeroSlice b (readLE32 b 0x3c + 0x58) 4)
    rw [zeroSlice_length] at h1
    omega
  omega

set_option maxRecDepth 100000 in
/-- Witness for the amended C6 on a concrete valid image. -/
theorem c6_amended_checksum_witness :
    readLE32 baseImgPatched ((findSig baseImgPatched).toNat + 0x58) =
      pe_checksum (zeroSlice baseImgPatched ((findSig baseImgPatched).toNat + 0x58) 4) :=
  c6_amended_checksum baseImg baseImgPatched (by decide) (by decide) (by decide)
    (by decide) (by decide) rfl

set_option maxRecDepth 100000 in
/-- Counterexample to claim C6 as stated: on strayImg the first
occurrence of the signature (offset 2) is not the real header (0x40),
so the checksum step succeeds but writes the new value at 0x5a while
the algorithm value over the zeroed output differs - the stale bytes
at the true checksum field 0x98 were excluded from the computed sum
but are included by the stated equality. -/
theorem c6_counterexample :
    checksum_patch strayImg = Except.ok strayImgPatched ∧
    readLE32 strayImgPatched ((findSig strayImgPatched).toNat + 0x58) ≠
      pe_checksum (zeroSlice strayImgPatched ((findSig strayImgPatched).toNat + 0x58) 4) :=
  ⟨rfl, by decide⟩

theorem write_resources_getD_frame (buf resBytes : List Nat)
    (resStart oldLen secEntryOff dirPtrOff rva i : Nat)
    (hi : i < buf.length)
    (hres : ¬ (resStart ≤ i ∧ i < resStart + oldLen))
    (hsec : ¬ (secEntryOff + 8 ≤ i ∧ i < secEntryOff + 24))
    (hdir : ¬ (dirPtrOff ≤ i ∧ i < dirPtrOff + 8)) :
    (write_resources buf resStart oldLen secEntryOff dirPtrOff rva resBytes).getD i 0 =
      buf.getD i 0 := by
  simp only [write_resources]
  rw [writeLE32_getD_frame _ _ _ _ (by omega)]
  rw [writeLE32_getD_frame _ _ _ _ (by omega)]
  rw [writeLE32_getD_frame _ _ _ _ (by omega)]
  rw [writeLE32_getD_frame _ _ _ _ (by omega)]
  rw [writeLE32_getD_frame _ _ _ _ (by omega)]
  rw [writeLE32_getD_frame _ _ _ _ (by omega)]
  by_cases hfits : resBytes.length ≤ oldLen
  · rw [if_pos hfits]
    apply setSlice_getD_frame
    simp only [List.length_append, List.length_replicate]
    omega
  · rw [if_neg hfits]
    exact getD_append_left buf resBytes i hi

/-- Amended claim C1.  For a successful clone through the spec-modelled
writer and the checksum step, every byte of the output inside the
destination range is identical to the destination byte, EXCEPT inside
the replaced resource-section range, the size and address fields of the
owning section-table entry, the 8-byte resource data-directory pointer
in the optional header (which the writer must also update, by step 4 of
the spec), and the 4-byte checksum field. -/
theorem c1_amended_frame (buf resBytes : List Nat)
    (resStart oldLen secEntryOff dirPtrOff rva i : Nat) (out : List Nat)
    (hrun : checksum_patch
        (write_resources buf resStart oldLen secEntryOff dirPtrOff rva resBytes) =
      Except.ok out)
    (hi : i < buf.length)
    (hres : ¬ (resStart ≤ i ∧ i < resStart + oldLen))
    (hsec : ¬ (secEntryOff + 8 ≤ i ∧ i < secEntryOff + 24))
    (hdir : ¬ (dirPtrOff ≤ i ∧ i < dirPtrOff + 8))
    (hck : ¬ ((findSig (write_resources buf resStart oldLen secEntryOff dirPtrOff rva
          resBytes) + 0x58).toNat ≤ i ∧
        i < (findSig (write_resources buf resStart oldLen secEntryOff dirPtrOff rva
          resBytes) + 0x58).toNat + 4)) :
    out.getD i 0 = buf.getD i 0 := by
  have hW := write_resources_getD_frame buf resBytes resStart oldLen secEntryOff
    dirPtrOff rva i hi hres hsec hdir
  simp only [checksum_patch] at hrun
  split at hrun
  · have hout := Except.ok.inj hrun
    rw [← hout, writeLE32_getD_frame _ _ _ _ (by omega)]
    exact hW
  · exact absurd hrun (by simp)

set_option maxRecDepth 100000 in
/-- Witness for the amended C1 at a concrete image and layout: byte
0x30 lies outside every region the writer and the patcher touch and is
unchanged. -/
theorem c1_amended_frame_witness :
    writerOutPatched.getD 0x30 0 = baseImg.getD 0x30 0 :=
  c1_amended_frame baseImg [1, 2, 3] 0x90 4 0x60 0x80 0x1000 0x30 writerOutPatched
    rfl (by decide) (by decide) (by decide) (by decide) (by decide)

set_option maxRecDepth 100000 in
/-- Counterexample to claim C1 as stated: byte 0x81 of the output lies
outside the resource section range [0x90, 0x94), outside the owning
section-table entry fields [0x68, 0x78) and outside the checksum field
[0x98, 0x9c), yet it differs from the destination byte, because the
writer updates the resource data-directory pointer at [0x80, 0x88) - a
region the claim does not except. -/
theorem c1_counterexample :
    checksum_patch writerOut = Except.ok writerOutPatched ∧
    writerOutPatched.getD 0x81 0 ≠ baseImg.getD 0x81 0 ∧
    ¬ (0x90 ≤ 0x81 ∧ 0x81 < 0x90 + 4) ∧
    ¬ (0x60 + 8 ≤ 0x81 ∧ (0x81 : Nat) < 0x60 + 24) ∧
    ¬ ((findSig writerOutPatched).toNat + 0x58 ≤ 0x81 ∧
       0x81 < (findSig writerOutPatched).toNat + 0x58 + 4) :=
  ⟨rfl, by decide, by decide, by decide, by decide⟩
